import Mathlib

/-!
# Verification of the Minerva Janggi core

Shallow embedding of the Minerva repository's board model
(`crates/minerva-types/src/board.rs`, `game.rs`, `events.rs`), rule-based
move generator (`crates/minerva-engine/src/lib.rs`) and match orchestrator
(`crates/minerva-orchestrator/src/lib.rs`), together with theorems settling
the specification claims.

Modelling conventions:
* Rust `u8`/`u32`/`u64` fields become `Nat`; `Square.offset` does its
  arithmetic in `i16` in the source, which cannot overflow for the values
  involved, so it is embedded with exact `Int` arithmetic.
* Move scores are `f32` in the source but only ever take the values
  0, 0.1, 1, 3, 5, 7, 9, 13, 1000, whose `f32` images are distinct and
  ordered the same way; we model them as `Nat` in tenths of the source
  unit (0, 1, 10, 30, 50, 70, 90, 130, 10000), which preserves every
  comparison the code performs.
* Methods taking `&mut self` are embedded as functions returning the new
  state; a method returning `Result<T, E>` on `&mut self` returns
  `Except E T × State` (the state is returned on the error path too, as
  the Rust value remains live and possibly mutated).
-/

/-- `PlayerSide` from board.rs. -/
inductive PlayerSide where
  | Blue
  | Red
deriving DecidableEq, Repr

/-- `PlayerSide::opponent`. -/
def PlayerSide.opponent : PlayerSide → PlayerSide
  | .Blue => .Red
  | .Red => .Blue

/-- `PieceKind` from board.rs. -/
inductive PieceKind where
  | General
  | Guard
  | Elephant
  | Horse
  | Chariot
  | Cannon
  | Soldier
deriving DecidableEq, Repr

/-- `Square` from board.rs (`file`, `rank` are `u8` in the source). -/
structure Square where
  file : Nat
  rank : Nat
deriving DecidableEq, Repr

/-- `Piece` from board.rs. -/
structure Piece where
  owner : PlayerSide
  kind : PieceKind
deriving DecidableEq, Repr

/-- `BoardDiff` from board.rs. -/
structure BoardDiff where
  square : Square
  before : Option Piece
  after : Option Piece
deriving DecidableEq, Repr

/-- `BoardState` from board.rs. -/
structure BoardState where
  side_to_move : PlayerSide
  pieces : List (Option Piece)
  width : Nat
  height : Nat
deriving DecidableEq, Repr

/-- `BoardState::DEFAULT_WIDTH`. -/
def BoardState.DEFAULT_WIDTH : Nat := 9

/-- `BoardState::DEFAULT_HEIGHT`. -/
def BoardState.DEFAULT_HEIGHT : Nat := 10

/-- `Square::offset`: bounds-checked offset against the default 9x10 grid.
The source widens `u8`/`i8` to `i16`, which is exact, so `Int` arithmetic
is a faithful embedding. -/
def Square.offset (s : Square) (df dr : Int) : Option Square :=
  let nf : Int := (s.file : Int) + df
  let nr : Int := (s.rank : Int) + dr
  if 0 ≤ nf ∧ 0 ≤ nr ∧ nf < (BoardState.DEFAULT_WIDTH : Int) ∧
      nr < (BoardState.DEFAULT_HEIGHT : Int) then
    some ⟨nf.toNat, nr.toNat⟩
  else
    none

/-- `BoardState::empty`. -/
def BoardState.empty : BoardState :=
  { side_to_move := .Blue
    pieces := List.replicate (BoardState.DEFAULT_WIDTH * BoardState.DEFAULT_HEIGHT) none
    width := BoardState.DEFAULT_WIDTH
    height := BoardState.DEFAULT_HEIGHT }

/-- `BoardState::index`: rank-major index, bounds-checked. -/
def BoardState.index (b : BoardState) (s : Square) : Option Nat :=
  if s.file < b.width ∧ s.rank < b.height then
    some (s.rank * b.width + s.file)
  else
    none

/-- `BoardState::piece_at`: `self.pieces.get(idx).copied().flatten()`. -/
def BoardState.piece_at (b : BoardState) (s : Square) : Option Piece :=
  (b.index s).bind (fun idx => (b.pieces[idx]?).join)

/-- `BoardState::set_piece` (takes `&mut self`, returns `bool`): modelled
as returning the success flag together with the updated board. -/
def BoardState.set_piece (b : BoardState) (s : Square) (p : Option Piece) :
    Bool × BoardState :=
  match b.index s with
  | some idx =>
    if idx < b.pieces.length then
      (true, { b with pieces := b.pieces.set idx p })
    else
      (false, b)
  | none => (false, b)

/-- `BoardState::move_piece` (takes `&mut self`, returns
`Result<Option<Piece>, String>`): modelled as the result paired with the
board left behind (unchanged on the error paths, exactly as in the source,
where `set_piece` only writes when it returns `true`). -/
def BoardState.move_piece (b : BoardState) (fromSq toSq : Square) :
    Except String (Option Piece) × BoardState :=
  match b.piece_at fromSq with
  | none => (Except.error "no piece at the origin square", b)
  | some moving =>
    let captured := b.piece_at toSq
    let r := b.set_piece toSq (some moving)
    if r.1 then
      (Except.ok captured, (r.2.set_piece fromSq none).2)
    else
      (Except.error "destination square is not valid", r.2)

/-- `BoardState::is_empty`. -/
def BoardState.is_empty (b : BoardState) (s : Square) : Bool :=
  (b.piece_at s).isNone

/-- The rank-major, file-ascending square enumeration used by the nested
`for rank / for file` loops throughout the source. -/
def squaresRect (width height : Nat) : List Square :=
  (List.range height).flatMap (fun rank =>
    (List.range width).map (fun file => ⟨file, rank⟩))

/-- `BoardState::differences`: one diff per square of the overlapping
rectangle whose piece differs, in rank-major order. -/
def BoardState.differences (b other : BoardState) : List BoardDiff :=
  let width := min b.width other.width
  let height := min b.height other.height
  (squaresRect width height).filterMap (fun square =>
    let before := b.piece_at square
    let after := other.piece_at square
    if before ≠ after then some ⟨square, before, after⟩ else none)

/-- The running state of the `for diff in diffs` loop of
`BoardState::infer_move_from_diffs`. -/
structure InferState where
  from_square : Option Square
  to_square : Option Square
  moving_piece : Option Piece
  captured_piece : Option Piece
deriving DecidableEq, Repr

/-- One iteration of the classification loop of `infer_move_from_diffs`. -/
def inferStep (st : InferState) (d : BoardDiff) : InferState :=
  match d.before, d.after with
  | some before, none =>
    { st with from_square := some d.square, moving_piece := some before }
  | none, some after =>
    { st with to_square := some d.square, moving_piece := some after }
  | some before, some after =>
    if before ≠ after then
      { st with to_square := some d.square, moving_piece := some after,
                captured_piece := some before }
    else
      st
  | none, none => st

/-- `BoardState::infer_move_from_diffs`. -/
def BoardState.infer_move_from_diffs (diffs : List BoardDiff) :
    Option (Square × Square × Piece × Option Piece) :=
  let st := diffs.foldl inferStep ⟨none, none, none, none⟩
  match st.from_square, st.to_square, st.moving_piece with
  | some f, some t, some piece => some (f, t, piece, st.captured_piece)
  | _, _, _ => none

/-!
## Game types (game.rs) and the rule-based engine (minerva-engine/src/lib.rs)

Scores and confidences are `f32` in the source; here they are `Nat` in
tenths of the source unit (see the header comment).
-/

/-- `Move` from game.rs (`from`/`to` renamed `fromSq`/`toSq`; `from` is a
Lean keyword). `confidence` is in score tenths. -/
structure Move where
  fromSq : Square
  toSq : Square
  promotion : Option String
  confidence : Option Nat
deriving DecidableEq, Repr

/-- `MoveCandidate` from game.rs; `score` in tenths. -/
structure MoveCandidate where
  mv : Move
  score : Nat
  depth : Nat
deriving DecidableEq, Repr

/-- `GamePhase` from game.rs. -/
inductive GamePhase where
  | Opening
  | Midgame
  | Endgame
deriving DecidableEq, Repr

/-- `GameClocks` from game.rs. -/
structure GameClocks where
  blue_ms : Nat
  red_ms : Nat
deriving DecidableEq, Repr

/-- `GameSnapshot` from game.rs; `created_at` is an abstract timestamp. -/
structure GameSnapshot where
  board : BoardState
  ply : Nat
  last_move : Option Move
  phase : GamePhase
  clocks : GameClocks
  created_at : Nat
deriving DecidableEq, Repr

/-- `EngineDecision` from game.rs. -/
structure EngineDecision where
  best_move : Option Move
  candidates : List MoveCandidate
  searched_nodes : Nat
  depth : Nat
  duration_ms : Nat
deriving DecidableEq, Repr

/-- `GameSnapshot::apply_move` (`&mut self`, `Result<(), String>`). -/
def GameSnapshot.apply_move (s : GameSnapshot) (side : PlayerSide) (mv : Move) :
    Except String Unit × GameSnapshot :=
  match s.board.piece_at mv.fromSq with
  | none => (Except.error "no piece at the origin square", s)
  | some moving_piece =>
    if moving_piece.owner ≠ side then
      (Except.error "selected piece does not belong to the current player", s)
    else
      match s.board.move_piece mv.fromSq mv.toSq with
      | (Except.error e, b) => (Except.error e, { s with board := b })
      | (Except.ok _, b) =>
        (Except.ok (),
          { s with
            board := { b with side_to_move := side.opponent }
            last_move := some mv
            ply := s.ply + 1 })

/-- `piece_value` from the engine, in tenths. -/
def piece_value (piece : Piece) : Nat :=
  match piece.kind with
  | .General => 10000
  | .Guard => 30
  | .Elephant => 50
  | .Horse => 70
  | .Chariot => 130
  | .Cannon => 90
  | .Soldier => 10

/-- `candidate` from the engine: non-captures score 0.1 (here 1 tenth). -/
def candidate (fromSq toSq : Square) (capture : Option Piece) : MoveCandidate :=
  let score := match capture with
    | some p => piece_value p
    | none => 1
  { mv := { fromSq := fromSq, toSq := toSq, promotion := none,
            confidence := some score }
    score := score
    depth := 1 }

/-- The destination test
`board.is_empty(to) || board.piece_at(to).map(|p| p.owner != side).unwrap_or(false)`
shared by the soldier, horse and palace generators. -/
def landable (board : BoardState) (side : PlayerSide) (toSq : Square) : Bool :=
  board.is_empty toSq ||
    ((board.piece_at toSq).map (fun p => p.owner != side)).getD false

/-- `soldier_moves` from the engine. -/
def soldier_moves (board : BoardState) (side : PlayerSide) (fromSq : Square) :
    List MoveCandidate :=
  let forward : Int := match side with
    | .Blue => 1
    | .Red => -1
  let step :=
    match fromSq.offset 0 forward with
    | some toSq =>
      if landable board side toSq then
        [candidate fromSq toSq (board.piece_at toSq)]
      else []
    | none => []
  let river_rank := board.height / 2
  let sideways :=
    if (side = PlayerSide.Blue ∧ river_rank ≤ fromSq.rank) ∨
        (side = PlayerSide.Red ∧ fromSq.rank ≤ river_rank - 1) then
      ([-1, 1] : List Int).flatMap (fun df =>
        match fromSq.offset df 0 with
        | some toSq =>
          if landable board side toSq then
            [candidate fromSq toSq (board.piece_at toSq)]
          else []
        | none => [])
    else []
  step ++ sideways

/-- The four cardinal directions of the chariot and cannon loops. -/
def cardinal_directions : List (Int × Int) := [(1, 0), (-1, 0), (0, 1), (0, -1)]

/-- The squares the `while let Some(next) = current.offset(df, dr)` loops
visit, in order. `Square.offset` confines squares to the default 9x10
grid, so a cardinal ray has at most 9 squares; fuel 19 therefore exhausts
every ray reachable from the source's loops and the list is exactly the
sequence of loop iterates. -/
def raySquares (s : Square) (df dr : Int) : Nat → List Square
  | 0 => []
  | fuel + 1 =>
    match s.offset df dr with
    | some next => next :: raySquares next df dr fuel
    | none => []

/-- Fuel passed to `raySquares`; any value above the maximal ray length
(9) gives the same list. -/
def rayFuel : Nat := 19

/-- The body of one direction of `rook_like_moves`: slide over the listed
squares until blocked; enemy blockers are captured then stop. -/
def rookWalk (board : BoardState) (side : PlayerSide) (fromSq : Square) :
    List Square → List MoveCandidate
  | [] => []
  | next :: rest =>
    match board.piece_at next with
    | some piece =>
      if piece.owner ≠ side then [candidate fromSq next (some piece)] else []
    | none => candidate fromSq next none :: rookWalk board side fromSq rest

/-- `rook_like_moves` from the engine. -/
def rook_like_moves (board : BoardState) (side : PlayerSide) (fromSq : Square) :
    List MoveCandidate :=
  cardinal_directions.flatMap (fun d =>
    rookWalk board side fromSq (raySquares fromSq d.1 d.2 rayFuel))

/-- The body of one direction of `cannon_moves`, with the loop's
`screen_found` flag made explicit: empty squares are pushed only while no
screen has been seen; the first piece becomes the screen; the second
piece, if an enemy, is a capture and always terminates the ray. -/
def cannonWalk (board : BoardState) (side : PlayerSide) (fromSq : Square)
    (screen_found : Bool) : List Square → List MoveCandidate
  | [] => []
  | next :: rest =>
    match board.piece_at next with
    | some piece =>
      if screen_found then
        if piece.owner ≠ side then [candidate fromSq next (some piece)] else []
      else
        cannonWalk board side fromSq true rest
    | none =>
      if screen_found then
        cannonWalk board side fromSq true rest
      else
        candidate fromSq next none :: cannonWalk board side fromSq false rest

/-- `cannon_moves` from the engine. -/
def cannon_moves (board : BoardState) (side : PlayerSide) (fromSq : Square) :
    List MoveCandidate :=
  cardinal_directions.flatMap (fun d =>
    cannonWalk board side fromSq false (raySquares fromSq d.1 d.2 rayFuel))

/-- The eight `(leg, dest)` offset patterns of `horse_moves`. -/
def horse_patterns : List ((Int × Int) × (Int × Int)) :=
  [((1, 0), (1, 1)),
   ((1, 0), (1, -1)),
   ((-1, 0), (-1, 1)),
   ((-1, 0), (-1, -1)),
   ((0, 1), (1, 1)),
   ((0, 1), (-1, 1)),
   ((0, -1), (1, -1)),
   ((0, -1), (-1, -1))]

/-- The contribution of one pattern of `horse_moves`: the leg square must
exist and be empty, then the diagonal destination must exist and be
landable. -/
def horse_pattern_moves (board : BoardState) (side : PlayerSide)
    (fromSq : Square) (pat : (Int × Int) × (Int × Int)) : List MoveCandidate :=
  match fromSq.offset pat.1.1 pat.1.2 with
  | some block =>
    if board.is_empty block then
      match block.offset pat.2.1 pat.2.2 with
      | some toSq =>
        if landable board side toSq then
          [candidate fromSq toSq (board.piece_at toSq)]
        else []
      | none => []
    else []
  | none => []

/-- `horse_moves` from the engine. -/
def horse_moves (board : BoardState) (side : PlayerSide) (fromSq : Square) :
    List MoveCandidate :=
  horse_patterns.flatMap (horse_pattern_moves board side fromSq)

/-- `palace_moves` from the engine (guards, elephants, generals). -/
def palace_moves (board : BoardState) (side : PlayerSide) (fromSq : Square)
    (kind : PieceKind) : List MoveCandidate :=
  let palace_files : List Nat := [3, 4, 5]
  let palace_ranks : List Nat := match side with
    | .Blue => [0, 1, 2]
    | .Red => [board.height - 1, board.height - 2, board.height - 3]
  let directions : List (Int × Int) := match kind with
    | .Guard | .General =>
      [(1, 0), (-1, 0), (0, 1), (0, -1), (1, 1), (-1, 1), (1, -1), (-1, -1)]
    | .Elephant => [(2, 2), (2, -2), (-2, 2), (-2, -2)]
    | _ => []
  directions.flatMap (fun d =>
    match fromSq.offset d.1 d.2 with
    | some toSq =>
      if toSq.file ∈ palace_files ∧ toSq.rank ∈ palace_ranks then
        if landable board side toSq then
          [candidate fromSq toSq (board.piece_at toSq)]
        else []
      else []
    | none => [])

/-- The per-piece dispatch and accumulation loop of `generate_candidates`
(before the hold-move fallback). -/
def rawCandidates (board : BoardState) (side : PlayerSide) : List MoveCandidate :=
  (squaresRect board.width board.height).flatMap (fun square =>
    match board.piece_at square with
    | some piece =>
      if piece.owner = side then
        match piece.kind with
        | .Soldier => soldier_moves board side square
        | .Chariot => rook_like_moves board side square
        | .Horse => horse_moves board side square
        | .Cannon => cannon_moves board side square
        | .Guard | .Elephant | .General => palace_moves board side square piece.kind
      else []
    | none => [])

/-- The hold pseudo-move built by `default_hold_move`. -/
def holdCandidate (square : Square) : MoveCandidate :=
  { mv := { fromSq := square, toSq := square, promotion := none,
            confidence := some 0 }
    score := 0
    depth := 0 }

/-- `default_hold_move` from the engine: the hold move on the first piece
owned by `side` in rank-major enumeration order, if any. -/
def default_hold_move (board : BoardState) (side : PlayerSide) :
    Option MoveCandidate :=
  ((squaresRect board.width board.height).filterMap (fun square =>
    match board.piece_at square with
    | some piece =>
      if piece.owner = side then some (holdCandidate square) else none
    | none => none)).head?

/-- `generate_candidates` from the engine. -/
def generate_candidates (board : BoardState) (side : PlayerSide) :
    List MoveCandidate :=
  let moves := rawCandidates board side
  if moves.isEmpty then
    match default_hold_move board side with
    | some pass => [pass]
    | none => []
  else
    moves

/-- Stable descending insertion used to model
`candidates.sort_by(|a, b| b.score.partial_cmp(&a.score))`: an element is
placed before the first element of strictly smaller-or-equal score, so an
earlier element precedes later elements of equal score. -/
def insertCand (c : MoveCandidate) : List MoveCandidate → List MoveCandidate
  | [] => [c]
  | x :: xs =>
    if x.score ≤ c.score then c :: x :: xs else x :: insertCand c xs

/-- Stable descending sort modelling Rust's (stable) `sort_by` with the
reversed score comparator. -/
def sortCands : List MoveCandidate → List MoveCandidate
  | [] => []
  | c :: cs => insertCand c (sortCands cs)

/-- `RuleBasedEngine::evaluate_position` (the `TurnContext` unpacked into
the board and side it reads). -/
def evaluate_position (board : BoardState) (side : PlayerSide) : EngineDecision :=
  let candidates := sortCands (generate_candidates board side)
  { best_move := candidates.head?.map (fun c => c.mv)
    candidates := candidates
    searched_nodes := 0
    depth := 1
    duration_ms := 5 }

/-- The squares holding a piece owned by `side`, in the rank-major
enumeration order both `generate_candidates` and `default_hold_move`
scan. -/
def ownedSquares (board : BoardState) (side : PlayerSide) : List Square :=
  (squaresRect board.width board.height).filter (fun square =>
    match board.piece_at square with
    | some piece => piece.owner = side
    | none => false)

/-!
## Events (events.rs) and the match orchestrator (minerva-orchestrator/src/lib.rs)

`SystemEvent::new` stamps a fresh UUID and wall-clock timestamp; both are
irrelevant to every claim and are omitted from the envelope. Collaborators
(controller, recognizer, engine, event sink, telemetry sink) appear as the
pure functions the claims assume to always succeed; taps, gesture
injections and sleeps touch no modelled state and publish nothing.
-/

/-- `EventKind` from events.rs. -/
inductive EventKind where
  | Lifecycle
  | BoardUpdate
  | EngineDecision
  | Telemetry
  | Network
  | Ops
deriving DecidableEq, Repr

/-- `LifecyclePhase` from events.rs. -/
inductive LifecyclePhase where
  | Boot
  | Ready
  | MatchStart
  | MatchEnd
  | Shutdown
deriving DecidableEq, Repr

/-- `LifecycleEvent` from events.rs. -/
structure LifecycleEvent where
  phase : LifecyclePhase
  details : Option String
deriving DecidableEq, Repr

/-- `EngineMetrics` from telemetry.rs (the fields the orchestrator fills;
`hashfull` is the constant 0.0 and is modelled as `Nat`). -/
structure EngineMetrics where
  nodes : Nat
  depth : Nat
  nps : Nat
  hashfull : Nat
deriving DecidableEq, Repr

/-- `EngineEvent` from events.rs. -/
structure EngineEvent where
  metrics : EngineMetrics
  best_line : List Move
deriving DecidableEq, Repr

/-- `EventPayload` from events.rs (payloads the orchestrator never builds
are carried abstractly). -/
inductive EventPayload where
  | Lifecycle (e : LifecycleEvent)
  | Board
  | Engine (e : EngineEvent)
  | Telemetry
  | Network
  | Ops
  | Unknown
deriving DecidableEq, Repr

/-- `SystemEvent` from events.rs, without the UUID and timestamp. -/
structure SystemEvent where
  kind : EventKind
  payload : EventPayload
deriving DecidableEq, Repr

/-- The collaborator bundle of `Orchestrator<C, V, E, N>`, specialised to
implementations that always succeed (the hypothesis of the orchestrator
claim). `capture_frame` is indexed by how many captures happened before,
letting the controller return a different frame each call. -/
structure Collaborators (Frame : Type) where
  capture_frame : Nat → Frame
  recognize : Frame → Option GameSnapshot → GameSnapshot
  evaluate : GameSnapshot → PlayerSide → EngineDecision

/-- The orchestrator state the claims observe: the retained snapshot of
`Orchestrator`, the sequence of events handed to `publish` (each published
to the network sink and recorded by the telemetry sink, in call order),
and the number of frames captured. -/
structure OrchestratorState where
  last_snapshot : Option GameSnapshot
  published : List SystemEvent
  captures : Nat
deriving Repr

/-- `Orchestrator::new`: no snapshot retained, nothing published yet. -/
def OrchestratorState.initial : OrchestratorState :=
  { last_snapshot := none, published := [], captures := 0 }

/-- `Orchestrator::publish`: network publish then telemetry record, both
succeeding; the event is appended to the published sequence. -/
def publishEvent (st : OrchestratorState) (e : SystemEvent) : OrchestratorState :=
  { st with published := st.published ++ [e] }

/-- `Orchestrator::boot` with every collaborator succeeding: connect, the
five-tap start sequence, engine warm-up and network start do not touch the
modelled state; then the Boot lifecycle event is published. -/
def orchestratorBoot (st : OrchestratorState) : OrchestratorState :=
  publishEvent st
    { kind := .Lifecycle
      payload := .Lifecycle { phase := .Boot, details := some "orchestrator boot complete" } }

/-- `Orchestrator::play_turn` with every collaborator succeeding: capture,
recognize (hinted by the previous snapshot), log diffs, retain the new
snapshot, evaluate, tap out the best move if any and locally apply it to
the retained snapshot (an apply failure is swallowed), then publish the
engine-decision event. -/
def play_turn {Frame : Type} (co : Collaborators Frame)
    (st : OrchestratorState) : OrchestratorState :=
  let frame := co.capture_frame st.captures
  let st1 := { st with captures := st.captures + 1 }
  let snapshot := co.recognize frame st1.last_snapshot
  let st2 := { st1 with last_snapshot := some snapshot }
  let side := snapshot.board.side_to_move
  let decision := co.evaluate snapshot side
  let st3 :=
    match decision.best_move with
    | some mv =>
      { st2 with
        last_snapshot := st2.last_snapshot.map (fun stored => (stored.apply_move side mv).2) }
    | none => st2
  publishEvent st3
    { kind := .EngineDecision
      payload := .Engine
        { metrics := { nodes := decision.searched_nodes, depth := decision.depth,
                       nps := 0, hashfull := 0 }
          best_line := decision.candidates.map (fun c => c.mv) } }

/-- `MatchRunner::run` for `Orchestrator`: publish MatchStart, run
`play_turn` once per `turn in 0..max_retries`, sequentially, then publish
MatchEnd. -/
def matchRun {Frame : Type} (co : Collaborators Frame) (max_retries : Nat)
    (st : OrchestratorState) : OrchestratorState :=
  let st1 := publishEvent st
    { kind := .Lifecycle
      payload := .Lifecycle { phase := .MatchStart, details := some "mock match started" } }
  let st2 := (List.range max_retries).foldl (fun s _ => play_turn co s) st1
  publishEvent st2
    { kind := .Lifecycle
      payload := .Lifecycle { phase := .MatchEnd, details := some "mock match completed" } }

/-- The observation the orchestrator claim makes of an event: its kind,
and its lifecycle phase when it is a lifecycle event. -/
def eventTag (e : SystemEvent) : EventKind × Option LifecyclePhase :=
  (e.kind,
    match e.payload with
    | .Lifecycle l => some l.phase
    | _ => none)

/-!
## Auxiliary definitions for the claim statements

Concrete boards for witnesses and counterexamples, the before/after swap
of a diff, and the spec-side description of the cannon behaviour the code
actually implements.
-/

/-- Before/after swap of a board diff (the shape `differences(B, A)`
reverses). -/
def swapDiff (d : BoardDiff) : BoardDiff :=
  ⟨d.square, d.after, d.before⟩

/-- A diff of the `(Some, None)` pattern: the only pattern that sets the
origin square in `infer_move_from_diffs`. -/
def isOriginDiff (d : BoardDiff) : Bool :=
  d.before.isSome && d.after.isNone

/-- A diff of a destination pattern of `infer_move_from_diffs`:
`(None, Some)`, or `(Some, Some)` with differing pieces. -/
def isDestDiff (d : BoardDiff) : Bool :=
  d.after.isSome && (d.before.isNone || d.before != d.after)

/-- Place a piece on a board (a successful `set_piece(square, Some(piece))`);
builds the concrete boards below. -/
def placed (b : BoardState) (s : Square) (p : Piece) : BoardState :=
  (b.set_piece s (some p)).2

/-- The amended description of one cannon ray, matching the code: every
empty square strictly before the first occupied square (the screen) is a
non-capturing destination; the screen is never a destination; empty
squares beyond the screen are not destinations; the first occupied square
after the screen is a capture destination exactly when it holds an enemy
piece; nothing lies beyond it. -/
def cannonRayAmended (board : BoardState) (side : PlayerSide) (fromSq : Square)
    (ray : List Square) : List MoveCandidate :=
  (ray.takeWhile (fun s => board.is_empty s)).map
      (fun s => candidate fromSq s none) ++
    match ray.dropWhile (fun s => board.is_empty s) with
    | [] => []
    | _screen :: tail =>
      match tail.dropWhile (fun s => board.is_empty s) with
      | [] => []
      | second :: _ =>
        match board.piece_at second with
        | some piece =>
          if piece.owner ≠ side then [candidate fromSq second (some piece)]
          else []
        | none => []

/-- Blue cannon at (0,0) with a screen at (0,3) and an enemy soldier at
(0,6): the square (0,4) sits beyond the screen and before the second
piece. -/
def boardCannonScreen : BoardState :=
  placed (placed (placed BoardState.empty ⟨0, 0⟩ ⟨.Blue, .Cannon⟩)
      ⟨0, 3⟩ ⟨.Red, .Soldier⟩)
    ⟨0, 6⟩ ⟨.Red, .Soldier⟩

/-- A lone red soldier on rank 4 of the default 9x10 board (rank 4 is
`height/2 - 1`, on the boundary the soldier-claim mislocates). -/
def boardRedSoldierMid : BoardState :=
  placed BoardState.empty ⟨4, 4⟩ ⟨.Red, .Soldier⟩

/-- A blue horse at (0,0) whose (1,0) leg square is blocked by a friendly
soldier. -/
def boardBlockedHorse : BoardState :=
  placed (placed BoardState.empty ⟨0, 0⟩ ⟨.Blue, .Horse⟩)
    ⟨1, 0⟩ ⟨.Blue, .Soldier⟩

/-- A lone blue general at (0,5): outside the palace files, so the palace
generator yields nothing and only the hold fallback remains. -/
def boardLoneGeneral : BoardState :=
  placed BoardState.empty ⟨0, 5⟩ ⟨.Blue, .General⟩

/-- A blue chariot at (0,0) and a red horse at (1,0) (a capture target for
the `move_piece` witness). -/
def boardChariotHorse : BoardState :=
  placed (placed BoardState.empty ⟨0, 0⟩ ⟨.Blue, .Chariot⟩)
    ⟨1, 0⟩ ⟨.Red, .Horse⟩

/-- A lone blue horse at (2,2). -/
def boardHorseA : BoardState :=
  placed BoardState.empty ⟨2, 2⟩ ⟨.Blue, .Horse⟩

/-- The same lone blue horse moved to (2,3). -/
def boardHorseB : BoardState :=
  placed BoardState.empty ⟨2, 3⟩ ⟨.Blue, .Horse⟩

/-!
## Board lemmas
-/

theorem piece_at_some_bounds {b : BoardState} {s : Square} {p : Piece}
    (h : b.piece_at s = some p) : s.file < b.width ∧ s.rank < b.height := by
  unfold BoardState.piece_at BoardState.index at h
  by_cases hb : s.file < b.width ∧ s.rank < b.height
  · exact hb
  · simp [hb] at h

theorem piece_at_out_of_bounds {b : BoardState} {s : Square}
    (h : ¬ (s.file < b.width ∧ s.rank < b.height)) : b.piece_at s = none := by
  unfold BoardState.piece_at BoardState.index
  simp [h]

theorem index_inj {w : Nat} {s t : Square} (hs : s.file < w) (ht : t.file < w)
    (h : s.rank * w + s.file = t.rank * w + t.file) : s = t := by
  have hw : 0 < w := lt_of_le_of_lt (Nat.zero_le _) hs
  have hf : s.file = t.file := by
    have h1 : (w * s.rank + s.file) % w = (w * t.rank + t.file) % w := by
      rw [Nat.mul_comm w s.rank, Nat.mul_comm w t.rank, h]
    rwa [Nat.mul_add_mod, Nat.mul_add_mod, Nat.mod_eq_of_lt hs,
      Nat.mod_eq_of_lt ht] at h1
  have hr : s.rank = t.rank := by
    have h' : w * s.rank + s.file = w * t.rank + t.file := by
      rw [Nat.mul_comm w s.rank, Nat.mul_comm w t.rank]
      exact h
    have h1 : (w * s.rank + s.file) / w = (w * t.rank + t.file) / w := by rw [h']
    rwa [Nat.mul_add_div hw, Nat.mul_add_div hw, Nat.div_eq_of_lt hs,
      Nat.div_eq_of_lt ht, Nat.add_zero, Nat.add_zero] at h1
  cases s
  cases t
  simp_all

theorem index_lt_length {b : BoardState} {s : Square}
    (hwf : b.pieces.length = b.width * b.height)
    (hf : s.file < b.width) (hr : s.rank < b.height) :
    s.rank * b.width + s.file < b.pieces.length := by
  rw [hwf]
  have h1 : s.rank * b.width + s.file < (s.rank + 1) * b.width := by
    rw [Nat.succ_mul]
    omega
  have h2 : (s.rank + 1) * b.width ≤ b.height * b.width :=
    Nat.mul_le_mul_right _ hr
  calc s.rank * b.width + s.file < (s.rank + 1) * b.width := h1
    _ ≤ b.height * b.width := h2
    _ = b.width * b.height := Nat.mul_comm _ _

theorem set_piece_spec (b : BoardState) (s : Square) (p : Option Piece)
    (hwf : b.pieces.length = b.width * b.height)
    (hf : s.file < b.width) (hr : s.rank < b.height) :
    (b.set_piece s p).1 = true ∧
    (b.set_piece s p).2.width = b.width ∧
    (b.set_piece s p).2.height = b.height ∧
    (b.set_piece s p).2.pieces.length = b.pieces.length ∧
    (b.set_piece s p).2.piece_at s = p ∧
    ∀ t : Square, t ≠ s → (b.set_piece s p).2.piece_at t = b.piece_at t := by
  have hb : s.file < b.width ∧ s.rank < b.height := ⟨hf, hr⟩
  have hidx : b.index s = some (s.rank * b.width + s.file) := by
    unfold BoardState.index
    simp [hb]
  have hlt : s.rank * b.width + s.file < b.pieces.length :=
    index_lt_length hwf hf hr
  have hset : b.set_piece s p =
      (true, { b with pieces := b.pieces.set (s.rank * b.width + s.file) p }) := by
    unfold BoardState.set_piece
    rw [hidx]
    simp [hlt]
  rw [hset]
  refine ⟨rfl, rfl, rfl, List.length_set .., ?_, ?_⟩
  · show (BoardState.piece_at _ s) = p
    unfold BoardState.piece_at
    have hidx2 : BoardState.index
        { b with pieces := b.pieces.set (s.rank * b.width + s.file) p } s =
          some (s.rank * b.width + s.file) := by
      unfold BoardState.index
      simp [hb]
    rw [hidx2]
    simp only [Option.some_bind]
    rw [List.getElem?_set_self', List.getElem?_eq_getElem hlt]
    simp
  · intro t ht
    by_cases htb : t.file < b.width ∧ t.rank < b.height
    · have hne : s.rank * b.width + s.file ≠ t.rank * b.width + t.file := by
        intro hcon
        exact ht (index_inj hf htb.1 hcon).symm
      show BoardState.piece_at _ t = b.piece_at t
      unfold BoardState.piece_at
      have hidx2 : BoardState.index
          { b with pieces := b.pieces.set (s.rank * b.width + s.file) p } t =
            some (t.rank * b.width + t.file) := by
        unfold BoardState.index
        simp [htb]
      have hidx3 : b.index t = some (t.rank * b.width + t.file) := by
        unfold BoardState.index
        simp [htb]
      rw [hidx2, hidx3]
      simp only [Option.some_bind]
      rw [List.getElem?_set_ne hne]
    · show BoardState.piece_at _ t = b.piece_at t
      rw [piece_at_out_of_bounds (b := b) htb]
      exact piece_at_out_of_bounds htb

theorem set_piece_snd_of_fail (b : BoardState) (s : Square) (p : Option Piece)
    (h : (b.set_piece s p).1 = false) : (b.set_piece s p).2 = b := by
  unfold BoardState.set_piece at h ⊢
  cases hidx : b.index s with
  | none => simp
  | some idx =>
    rw [hidx] at h
    by_cases hlt : idx < b.pieces.length
    · simp [hlt] at h
    · simp [hlt]

/-- C4: on a well-formed board, `move_piece(from, to)` with a piece at
`from`, an in-bounds `to` and `from != to` succeeds, clears `from`, places
the piece originally at `from` onto `to` (overwriting without a legality
check), and returns exactly the piece that occupied `to` before the move;
it fails when `from` is empty. -/
theorem move_piece_spec (b : BoardState)
    (hwf : b.pieces.length = b.width * b.height) (fromSq toSq : Square)
    (htf : toSq.file < b.width) (htr : toSq.rank < b.height)
    (hne : fromSq ≠ toSq) :
    (∀ p : Piece, b.piece_at fromSq = some p →
      (b.move_piece fromSq toSq).1 = Except.ok (b.piece_at toSq) ∧
      (b.move_piece fromSq toSq).2.piece_at fromSq = none ∧
      (b.move_piece fromSq toSq).2.piece_at toSq = some p) ∧
    (b.piece_at fromSq = none →
      ∃ e, (b.move_piece fromSq toSq).1 = Except.error e) := by
  constructor
  · intro p hp
    obtain ⟨hff, hfr⟩ := piece_at_some_bounds hp
    obtain ⟨hs1, hw1, hh1, hl1, hat1, hother1⟩ :=
      set_piece_spec b toSq (some p) hwf htf htr
    set b1 := (b.set_piece toSq (some p)).2 with hb1
    have hwf1 : b1.pieces.length = b1.width * b1.height := by
      rw [hl1, hw1, hh1]
      exact hwf
    have hff1 : fromSq.file < b1.width := by rw [hw1]; exact hff
    have hfr1 : fromSq.rank < b1.height := by rw [hh1]; exact hfr
    obtain ⟨hs2, hw2, hh2, hl2, hat2, hother2⟩ :=
      set_piece_spec b1 fromSq none hwf1 hff1 hfr1
    have hmv : b.move_piece fromSq toSq =
        (Except.ok (b.piece_at toSq), (b1.set_piece fromSq none).2) := by
      unfold BoardState.move_piece
      rw [hp]
      simp [hs1]
    rw [hmv]
    refine ⟨rfl, hat2, ?_⟩
    rw [hother2 toSq (Ne.symm hne)]
    exact hat1
  · intro hp
    refine ⟨"no piece at the origin square", ?_⟩
    unfold BoardState.move_piece
    rw [hp]

/-- C4 witness: a blue chariot at (0,0) captures the red horse at (1,0);
the origin empties, the chariot lands on (1,0), and the horse is returned;
and moving from an empty origin fails. -/
theorem move_piece_spec_witness :
    ((boardChariotHorse.move_piece ⟨0, 0⟩ ⟨1, 0⟩).1 =
        Except.ok (boardChariotHorse.piece_at ⟨1, 0⟩) ∧
      (boardChariotHorse.move_piece ⟨0, 0⟩ ⟨1, 0⟩).2.piece_at ⟨0, 0⟩ = none ∧
      (boardChariotHorse.move_piece ⟨0, 0⟩ ⟨1, 0⟩).2.piece_at ⟨1, 0⟩ =
        some ⟨.Blue, .Chariot⟩) ∧
    (BoardState.empty.move_piece ⟨0, 0⟩ ⟨1, 0⟩).1.isOk = false := by
  constructor
  · exact (move_piece_spec boardChariotHorse (by decide) ⟨0, 0⟩ ⟨1, 0⟩
      (by decide) (by decide) (by decide)).1 ⟨.Blue, .Chariot⟩ (by decide)
  · rcases (move_piece_spec BoardState.empty (by decide) ⟨0, 0⟩ ⟨1, 0⟩
      (by decide) (by decide) (by decide)).2 (by decide) with ⟨e, he⟩
    rw [he]
    rfl

/-- C10: `move_piece` is atomic on error — whenever it returns an error
(empty origin or invalid destination), the board is left completely
unchanged; in particular an out-of-bounds destination does not clear the
origin square. -/
theorem move_piece_error_unchanged (b : BoardState) (fromSq toSq : Square)
    (e : String) (h : (b.move_piece fromSq toSq).1 = Except.error e) :
    (b.move_piece fromSq toSq).2 = b := by
  cases hp : b.piece_at fromSq with
  | none =>
    unfold BoardState.move_piece
    rw [hp]
  | some moving =>
    by_cases hs : (b.set_piece toSq (some moving)).1 = true
    · exfalso
      have hok : (b.move_piece fromSq toSq).1 = Except.ok (b.piece_at toSq) := by
        unfold BoardState.move_piece
        rw [hp]
        simp [hs]
      rw [hok] at h
      exact Except.noConfusion h
    · have hs' : (b.set_piece toSq (some moving)).1 = false :=
        Bool.eq_false_iff.mpr hs
      have hmv : b.move_piece fromSq toSq =
          (Except.error "destination square is not valid",
            (b.set_piece toSq (some moving)).2) := by
        unfold BoardState.move_piece
        rw [hp]
        simp [hs']
      rw [hmv]
      exact set_piece_snd_of_fail _ _ _ hs'

/-- C10 witness: moving the chariot at (0,0) to the out-of-bounds square
(9,0) errors and leaves the board — including the origin — untouched. -/
theorem move_piece_error_unchanged_witness :
    (boardChariotHorse.move_piece ⟨0, 0⟩ ⟨9, 0⟩).2 = boardChariotHorse :=
  move_piece_error_unchanged boardChariotHorse ⟨0, 0⟩ ⟨9, 0⟩
    "destination square is not valid" (by rfl)

/-- C5: `differences(B, B)` is empty, and `differences(A, B)` is exactly
`differences(B, A)` with every diff's before/after fields swapped — same
count, same squares, same rank-major order. -/
theorem differences_refl_symm :
    (∀ B : BoardState, B.differences B = []) ∧
    (∀ A B : BoardState,
      A.differences B = (B.differences A).map swapDiff) := by
  constructor
  · intro B
    unfold BoardState.differences
    simp
  · intro A B
    unfold BoardState.differences
    rw [Nat.min_comm B.width A.width, Nat.min_comm B.height A.height,
      List.map_filterMap]
    apply List.filterMap_congr
    intro sq _
    by_cases h : A.piece_at sq = B.piece_at sq
    · simp [h]
    · simp only [ne_eq, h, not_false_iff, if_true, Option.map_some]
      have h' : ¬ B.piece_at sq = A.piece_at sq := fun hc => h hc.symm
      simp [h', swapDiff]

/-!
## Lemmas for move inference (C6)
-/

theorem mem_squaresRect {w h : Nat} {s : Square} :
    s ∈ squaresRect w h ↔ s.file < w ∧ s.rank < h := by
  unfold squaresRect
  simp only [List.mem_flatMap, List.mem_map, List.mem_range]
  constructor
  · rintro ⟨r, hr, f, hf, rfl⟩
    exact ⟨hf, hr⟩
  · rintro ⟨hf, hr⟩
    exact ⟨s.rank, hr, s.file, hf, rfl⟩

theorem nodup_squaresRect (w h : Nat) : (squaresRect w h).Nodup := by
  unfold squaresRect
  rw [List.nodup_flatMap]
  constructor
  · intro r _
    exact (List.nodup_range w).map (fun a b hab => congrArg Square.file hab)
  · have hlt := List.pairwise_lt_range h
    apply hlt.imp
    intro a b hab x hxa hxb
    simp only [List.mem_map, List.mem_range] at hxa hxb
    obtain ⟨fa, _, rfl⟩ := hxa
    obtain ⟨fb, _, hfb⟩ := hxb
    have : a = b := by
      have := congrArg Square.rank hfb
      simpa using this.symm
    omega

theorem filterMap_eq_single {α β : Type} {l : List α} {f : α → Option β}
    {a : α} {d : β} (hnd : l.Nodup) (ha : a ∈ l) (hfa : f a = some d)
    (hrest : ∀ x ∈ l, x ≠ a → f x = none) :
    l.filterMap f = [d] := by
  induction l with
  | nil => cases ha
  | cons x xs ih =>
    rw [List.nodup_cons] at hnd
    by_cases hx : x = a
    · subst hx
      rw [List.filterMap_cons, hfa]
      have hnil : xs.filterMap f = [] :=
        List.filterMap_eq_nil_iff.mpr (fun y hy =>
          hrest y (List.mem_cons_of_mem _ hy) (fun hya => hnd.1 (hya ▸ hy)))
      rw [hnil]
    · have ha' : a ∈ xs := by
        rcases List.mem_cons.mp ha with h | h
        · exact absurd h.symm hx
        · exact h
      rw [List.filterMap_cons, hrest x (List.mem_cons_self x xs) hx]
      exact ih hnd.2 ha' (fun y hy hya => hrest y (List.mem_cons_of_mem _ hy) hya)

theorem filterMap_eq_pair {α β : Type} {l : List α} {f : α → Option β}
    {a b : α} {da db : β} (hnd : l.Nodup) (ha : a ∈ l) (hb : b ∈ l)
    (hab : a ≠ b) (hfa : f a = some da) (hfb : f b = some db)
    (hrest : ∀ x ∈ l, x ≠ a → x ≠ b → f x = none) :
    l.filterMap f = [da, db] ∨ l.filterMap f = [db, da] := by
  induction l with
  | nil => cases ha
  | cons x xs ih =>
    rw [List.nodup_cons] at hnd
    by_cases hxa : x = a
    · subst hxa
      left
      rw [List.filterMap_cons, hfa]
      have hb' : b ∈ xs := by
        rcases List.mem_cons.mp hb with h | h
        · exact absurd h.symm hab
        · exact h
      have hone : xs.filterMap f = [db] := by
        refine filterMap_eq_single hnd.2 hb' hfb (fun y hy hyb => ?_)
        refine hrest y (List.mem_cons_of_mem _ hy) (fun hya => hnd.1 (hya ▸ hy)) hyb
      rw [hone]
    · by_cases hxb : x = b
      · subst hxb
        right
        rw [List.filterMap_cons, hfb]
        have ha' : a ∈ xs := by
          rcases List.mem_cons.mp ha with h | h
          · exact absurd h.symm hxa
          · exact h
        have hone : xs.filterMap f = [da] := by
          refine filterMap_eq_single hnd.2 ha' hfa (fun y hy hya => ?_)
          refine hrest y (List.mem_cons_of_mem _ hy) hya
            (fun hyb => hnd.1 (hyb ▸ hy))
        rw [hone]
      · have ha' : a ∈ xs := by
          rcases List.mem_cons.mp ha with h | h
          · exact absurd h.symm hxa
          · exact h
        have hb' : b ∈ xs := by
          rcases List.mem_cons.mp hb with h | h
          · exact absurd h.symm hxb
          · exact h
        rw [List.filterMap_cons, hrest x (List.mem_cons_self x xs) hxa hxb]
        exact ih hnd.2 ha' hb'
          (fun y hy hya hyb => hrest y (List.mem_cons_of_mem _ hy) hya hyb)

theorem differences_as_filterMap (A B : BoardState) :
    A.differences B =
      (squaresRect (min A.width B.width) (min A.height B.height)).filterMap
        (fun sq =>
          if A.piece_at sq ≠ B.piece_at sq then
            some ⟨sq, A.piece_at sq, B.piece_at sq⟩
          else none) := rfl

theorem inferStep_from_square (st : InferState) (d : BoardDiff)
    (hd : isOriginDiff d = false) :
    (inferStep st d).from_square = st.from_square := by
  rcases hb : d.before with _ | x <;> rcases ha : d.after with _ | y
  · simp [inferStep, hb, ha]
  · simp [inferStep, hb, ha]
  · exfalso
    rw [isOriginDiff, hb, ha] at hd
    simp at hd
  · simp only [inferStep, hb, ha]
    split <;> rfl

theorem inferStep_to_square (st : InferState) (d : BoardDiff)
    (hd : isDestDiff d = false) :
    (inferStep st d).to_square = st.to_square := by
  rcases hb : d.before with _ | x <;> rcases ha : d.after with _ | y
  · simp [inferStep, hb, ha]
  · exfalso
    rw [isDestDiff, hb, ha] at hd
    simp at hd
  · simp [inferStep, hb, ha]
  · rw [isDestDiff, hb, ha] at hd
    by_cases hxy : x = y
    · subst hxy
      simp [inferStep, hb, ha]
    · exfalso
      simp only [Option.isSome_some, Bool.true_and, Option.isNone_some,
        Bool.false_or] at hd
      rw [bne_eq_false_iff_eq] at hd
      exact hxy (by injection hd)

theorem foldl_inferStep_from_square (diffs : List BoardDiff) (st : InferState)
    (h : ∀ d ∈ diffs, isOriginDiff d = false) :
    (diffs.foldl inferStep st).from_square = st.from_square := by
  induction diffs generalizing st with
  | nil => rfl
  | cons d ds ih =>
    rw [List.foldl_cons, ih _ (fun x hx => h x (List.mem_cons_of_mem _ hx))]
    exact inferStep_from_square st d (h d (List.mem_cons_self d ds))

theorem foldl_inferStep_to_square (diffs : List BoardDiff) (st : InferState)
    (h : ∀ d ∈ diffs, isDestDiff d = false) :
    (diffs.foldl inferStep st).to_square = st.to_square := by
  induction diffs generalizing st with
  | nil => rfl
  | cons d ds ih =>
    rw [List.foldl_cons, ih _ (fun x hx => h x (List.mem_cons_of_mem _ hx))]
    exact inferStep_to_square st d (h d (List.mem_cons_self d ds))

theorem infer_of_from_square_none {diffs : List BoardDiff}
    (h : (diffs.foldl inferStep ⟨none, none, none, none⟩).from_square = none) :
    BoardState.infer_move_from_diffs diffs = none := by
  unfold BoardState.infer_move_from_diffs
  rcases hst : diffs.foldl inferStep ⟨none, none, none, none⟩ with ⟨fs, ts, ms, cs⟩
  rw [hst] at h
  simp only at h
  subst h
  rcases ts with _ | t <;> rcases ms with _ | m <;> rfl

theorem infer_of_to_square_none {diffs : List BoardDiff}
    (h : (diffs.foldl inferStep ⟨none, none, none, none⟩).to_square = none) :
    BoardState.infer_move_from_diffs diffs = none := by
  unfold BoardState.infer_move_from_diffs
  rcases hst : diffs.foldl inferStep ⟨none, none, none, none⟩ with ⟨fs, ts, ms, cs⟩
  rw [hst] at h
  simp only at h
  subst h
  rcases fs with _ | f <;> rcases ms with _ | m <;> rfl

/-- C6: for a board `B` obtained from `A` by moving a single piece from
`S1` to an empty square `S2` (no capture, no other change),
`infer_move_from_diffs(differences(A, B))` is exactly
`(S1, S2, piece, None)`; and the inference returns `None` whenever the
diff list lacks an origin-pattern diff or lacks a destination-pattern
diff (for example, an empty diff list). -/
theorem infer_single_move :
    (∀ (A B : BoardState) (p : Piece) (S1 S2 : Square),
      B.width = A.width → B.height = A.height →
      S1.file < A.width → S1.rank < A.height →
      S2.file < A.width → S2.rank < A.height →
      S1 ≠ S2 →
      A.piece_at S1 = some p → B.piece_at S1 = none →
      A.piece_at S2 = none → B.piece_at S2 = some p →
      (∀ s ∈ squaresRect A.width A.height, s ≠ S1 → s ≠ S2 →
        B.piece_at s = A.piece_at s) →
      BoardState.infer_move_from_diffs (A.differences B) =
        some (S1, S2, p, none)) ∧
    (∀ diffs : List BoardDiff, (∀ d ∈ diffs, isOriginDiff d = false) →
      BoardState.infer_move_from_diffs diffs = none) ∧
    (∀ diffs : List BoardDiff, (∀ d ∈ diffs, isDestDiff d = false) →
      BoardState.infer_move_from_diffs diffs = none) := by
  refine ⟨?_, ?_, ?_⟩
  · intro A B p S1 S2 hw hh h1f h1r h2f h2r hne hA1 hB1 hA2 hB2 hrest
    have hpair : A.differences B = [⟨S1, some p, none⟩, ⟨S2, none, some p⟩] ∨
        A.differences B = [⟨S2, none, some p⟩, ⟨S1, some p, none⟩] := by
      rw [differences_as_filterMap, hw, hh, Nat.min_self, Nat.min_self]
      refine filterMap_eq_pair (nodup_squaresRect _ _)
        (mem_squaresRect.mpr ⟨h1f, h1r⟩) (mem_squaresRect.mpr ⟨h2f, h2r⟩) hne
        ?_ ?_ ?_
      · rw [hA1, hB1]
        simp
      · rw [hA2, hB2]
        simp
      · intro x hx hx1 hx2
        rw [hrest x hx hx1 hx2]
        simp
    rcases hpair with hd | hd <;> rw [hd] <;> rfl
  · intro diffs h
    exact infer_of_from_square_none (foldl_inferStep_from_square diffs _ h)
  · intro diffs h
    exact infer_of_to_square_none (foldl_inferStep_to_square diffs _ h)

/-- C6 witness: the blue horse moved from (2,2) to (2,3) is inferred
exactly, and the empty diff list yields no inference. -/
theorem infer_single_move_witness :
    BoardState.infer_move_from_diffs (boardHorseA.differences boardHorseB) =
        some (⟨2, 2⟩, ⟨2, 3⟩, ⟨.Blue, .Horse⟩, none) ∧
      BoardState.infer_move_from_diffs [] = none := by
  constructor
  · exact infer_single_move.1 boardHorseA boardHorseB ⟨.Blue, .Horse⟩
      ⟨2, 2⟩ ⟨2, 3⟩ rfl rfl (by decide) (by decide) (by decide) (by decide)
      (by decide) (by decide) (by decide) (by decide) (by decide) (by decide)
  · exact infer_single_move.2.1 [] (by decide)

/-!
## Lemmas for the move generator
-/

theorem offset_sound {s t : Square} {df dr : Int}
    (h : s.offset df dr = some t) :
    (t.file : Int) = (s.file : Int) + df ∧
      (t.rank : Int) = (s.rank : Int) + dr := by
  simp only [Square.offset] at h
  split at h
  · rename_i hc
    obtain ⟨h0f, h0r, _, _⟩ := hc
    injection h with h
    constructor
    · rw [← h]
      exact Int.toNat_of_nonneg h0f
    · rw [← h]
      exact Int.toNat_of_nonneg h0r
  · cases h

/-- C2 (amended): soldier sideways candidates are generated exactly when
the rank satisfies the code's river threshold — `rank ≥ height/2` for
Blue (moving toward increasing ranks) and `rank ≤ height/2 - 1`
(saturating, i.e. `rank < height/2` for positive heights) for Red (moving
toward decreasing ranks): under the threshold every in-bounds landable
side square yields its candidate, and outside it no generated candidate
stays on the soldier's rank. -/
theorem soldier_sideways (board : BoardState) (side : PlayerSide)
    (fromSq : Square) :
    (((side = PlayerSide.Blue ∧ board.height / 2 ≤ fromSq.rank) ∨
        (side = PlayerSide.Red ∧ fromSq.rank ≤ board.height / 2 - 1)) →
      ∀ df ∈ ([-1, 1] : List Int), ∀ toSq : Square,
        fromSq.offset df 0 = some toSq → landable board side toSq = true →
        candidate fromSq toSq (board.piece_at toSq) ∈
          soldier_moves board side fromSq) ∧
    (¬ ((side = PlayerSide.Blue ∧ board.height / 2 ≤ fromSq.rank) ∨
        (side = PlayerSide.Red ∧ fromSq.rank ≤ board.height / 2 - 1)) →
      ∀ c ∈ soldier_moves board side fromSq, c.mv.toSq.rank ≠ fromSq.rank) := by
  constructor
  · intro hcond df hdf toSq hoff hland
    simp only [soldier_moves]
    refine List.mem_append_right _ ?_
    rw [if_pos hcond]
    refine List.mem_flatMap.mpr ⟨df, hdf, ?_⟩
    simp [hoff, hland]
  · intro hcond c hc
    simp only [soldier_moves] at hc
    rw [if_neg hcond] at hc
    rw [List.append_nil] at hc
    cases side with
    | Blue =>
      cases hoff : fromSq.offset 0 1 with
      | none =>
        simp [hoff] at hc
      | some t =>
        simp only [hoff] at hc
        by_cases hland : landable board PlayerSide.Blue t = true
        · rw [if_pos hland] at hc
          rcases List.mem_singleton.mp hc with rfl
          have hs := (offset_sound hoff).2
          simp only [candidate]
          intro hcon
          omega
        · rw [if_neg hland] at hc
          cases hc
    | Red =>
      cases hoff : fromSq.offset 0 (-1) with
      | none =>
        simp [hoff] at hc
      | some t =>
        simp only [hoff] at hc
        by_cases hland : landable board PlayerSide.Red t = true
        · rw [if_pos hland] at hc
          rcases List.mem_singleton.mp hc with rfl
          have hs := (offset_sound hoff).2
          simp only [candidate]
          intro hcon
          omega
        · rw [if_neg hland] at hc
          cases hc

/-- C2 counterexample to the claim as stated: the red soldier on rank 4 of
the 9x10 board does get sideways candidates even though
`rank < height/2 - 1` fails (4 is not below 4); the claim's strict
threshold is off by one against the code's `rank <= river_rank - 1`. -/
theorem soldier_sideways_cex :
    (∃ c ∈ soldier_moves boardRedSoldierMid PlayerSide.Red ⟨4, 4⟩,
      c.mv.toSq = ⟨3, 4⟩) ∧
    ¬ ((4 : Nat) < boardRedSoldierMid.height / 2 - 1) := by decide

/-- C2 witness: the red soldier on rank 4 satisfies the amended threshold
and its left sideways candidate is generated; a blue soldier on rank 0
fails the threshold and every candidate leaves rank 0. -/
theorem soldier_sideways_witness :
    candidate ⟨4, 4⟩ ⟨3, 4⟩ (boardRedSoldierMid.piece_at ⟨3, 4⟩) ∈
        soldier_moves boardRedSoldierMid PlayerSide.Red ⟨4, 4⟩ ∧
      (soldier_moves BoardState.empty PlayerSide.Blue ⟨0, 0⟩).all
        (fun c => c.mv.toSq.rank != 0) = true := by
  constructor
  · exact (soldier_sideways boardRedSoldierMid PlayerSide.Red ⟨4, 4⟩).1
      (Or.inr ⟨rfl, by decide⟩) (-1) (by decide) ⟨3, 4⟩ (by decide) (by decide)
  · rw [List.all_eq_true]
    intro c hc
    have h := (soldier_sideways BoardState.empty PlayerSide.Blue ⟨0, 0⟩).2
      (by decide) c hc
    simpa using h

theorem horse_sum_inj : ∀ p1 ∈ horse_patterns, ∀ p2 ∈ horse_patterns,
    p1.1.1 + p1.2.1 = p2.1.1 + p2.2.1 → p1.1.2 + p1.2.2 = p2.1.2 + p2.2.2 →
    p1 = p2 := by decide

/-- C7: a horse pattern whose orthogonal leg square is occupied (by either
side) contributes no candidate: the pattern's diagonal destination never
appears among the generated horse moves, even when that destination square
exists and would be empty or enemy-occupied. -/
theorem horse_leg_blocked (board : BoardState) (side : PlayerSide)
    (fromSq : Square) (pat : (Int × Int) × (Int × Int)) (block toSq : Square)
    (hpat : pat ∈ horse_patterns)
    (hleg : fromSq.offset pat.1.1 pat.1.2 = some block)
    (hocc : board.is_empty block = false)
    (hdest : block.offset pat.2.1 pat.2.2 = some toSq) :
    ∀ c ∈ horse_moves board side fromSq, c.mv.toSq ≠ toSq := by
  intro c hc
  unfold horse_moves at hc
  rcases List.mem_flatMap.mp hc with ⟨pat', hpat', hc'⟩
  unfold horse_pattern_moves at hc'
  cases hleg' : fromSq.offset pat'.1.1 pat'.1.2 with
  | none => simp [hleg'] at hc'
  | some block' =>
    simp only [hleg'] at hc'
    by_cases hemp : board.is_empty block' = true
    · rw [if_pos hemp] at hc'
      cases hdest' : block'.offset pat'.2.1 pat'.2.2 with
      | none => simp [hdest'] at hc'
      | some toSq' =>
        simp only [hdest'] at hc'
        by_cases hland : landable board side toSq' = true
        · rw [if_pos hland] at hc'
          rcases List.mem_singleton.mp hc' with rfl
          simp only [candidate]
          intro hcon
          rw [hcon] at hdest'
          obtain ⟨h1f, h1r⟩ := offset_sound hleg
          obtain ⟨h2f, h2r⟩ := offset_sound hdest
          obtain ⟨h3f, h3r⟩ := offset_sound hleg'
          obtain ⟨h4f, h4r⟩ := offset_sound hdest'
          have hsum1 : pat'.1.1 + pat'.2.1 = pat.1.1 + pat.2.1 := by omega
          have hsum2 : pat'.1.2 + pat'.2.2 = pat.1.2 + pat.2.2 := by omega
          have hpp : pat' = pat := horse_sum_inj pat' hpat' pat hpat hsum1 hsum2
          rw [hpp, hleg] at hleg'
          injection hleg' with hbb
          rw [hbb] at hocc
          rw [hemp] at hocc
          exact Bool.noConfusion hocc
        · rw [if_neg hland] at hc'
          cases hc'
    · rw [if_neg hemp] at hc'
      cases hc'

/-- C7 witness: with the (1,0) leg square occupied by a friendly soldier,
the pattern `((1,0),(1,1))` destination (2,1) of the horse at (0,0) is
absent from the generated moves even though (2,1) is empty. -/
theorem horse_leg_blocked_witness :
    (horse_moves boardBlockedHorse PlayerSide.Blue ⟨0, 0⟩).all
        (fun c => c.mv.toSq != ⟨2, 1⟩) = true := by
  rw [List.all_eq_true]
  intro c hc
  have h := horse_leg_blocked boardBlockedHorse PlayerSide.Blue ⟨0, 0⟩
    ((1, 0), (1, 1)) ⟨1, 0⟩ ⟨2, 1⟩ (by decide) (by decide) (by decide)
    (by decide) c hc
  simpa using h

theorem cannonWalk_screen_found (board : BoardState) (side : PlayerSide)
    (fromSq : Square) : ∀ ray : List Square,
    cannonWalk board side fromSq true ray =
      match ray.dropWhile (fun s => board.is_empty s) with
      | [] => []
      | second :: _ =>
        match board.piece_at second with
        | some piece =>
          if piece.owner ≠ side then [candidate fromSq second (some piece)]
          else []
        | none => [] := by
  intro ray
  induction ray with
  | nil => rfl
  | cons s rest ih =>
    cases hp : board.piece_at s with
    | some piece =>
      have hse : board.is_empty s = false := by
        simp [BoardState.is_empty, hp]
      simp only [cannonWalk, hp, List.dropWhile_cons, hse, Bool.false_eq_true,
        if_false]
      simp
    | none =>
      have hse : board.is_empty s = true := by
        simp [BoardState.is_empty, hp]
      simp only [cannonWalk, hp, List.dropWhile_cons, hse, if_true]
      exact ih

theorem cannonWalk_eq_amended (board : BoardState) (side : PlayerSide)
    (fromSq : Square) : ∀ ray : List Square,
    cannonWalk board side fromSq false ray =
      cannonRayAmended board side fromSq ray := by
  intro ray
  induction ray with
  | nil => rfl
  | cons s rest ih =>
    cases hp : board.piece_at s with
    | some piece =>
      have hse : board.is_empty s = false := by
        simp [BoardState.is_empty, hp]
      simp only [cannonWalk, cannonRayAmended, hp, List.takeWhile_cons,
        List.dropWhile_cons, hse, Bool.false_eq_true, if_false, List.map_nil,
        List.nil_append]
      exact cannonWalk_screen_found board side fromSq rest
    | none =>
      have hse : board.is_empty s = true := by
        simp [BoardState.is_empty, hp]
      simp only [cannonWalk, cannonRayAmended, hp, List.takeWhile_cons,
        List.dropWhile_cons, hse, if_true, List.map_cons, List.cons_append]
      rw [ih]
      rfl

/-- C1 (amended): along each cardinal ray the cannon's destinations are
exactly: every empty square strictly before the first occupied square (the
screen), as non-capturing moves; never the screen itself; no empty square
beyond the screen; the first occupied square after the screen as a capture
exactly when it holds an enemy piece, terminating the ray; and nothing at
or beyond that second piece otherwise. A ray with no screen thus yields
all its empty squares (not none) as non-capturing destinations. -/
theorem cannon_moves_amended (board : BoardState) (side : PlayerSide)
    (fromSq : Square) :
    cannon_moves board side fromSq =
      cardinal_directions.flatMap (fun d =>
        cannonRayAmended board side fromSq (raySquares fromSq d.1 d.2 rayFuel)) := by
  unfold cannon_moves
  simp only [cannonWalk_eq_amended]

/-- C1 counterexample to the claim as stated: for the blue cannon at (0,0)
with a screen at (0,3) and an enemy at (0,6), the empty square (0,4) —
beyond the screen and before the second piece — is NOT among the generated
destinations, and the empty square (1,0) on a ray with no screen IS a
non-capturing destination. -/
theorem cannon_moves_cex :
    boardCannonScreen.is_empty ⟨0, 4⟩ = true ∧
    (∀ c ∈ cannon_moves boardCannonScreen PlayerSide.Blue ⟨0, 0⟩,
      c.mv.toSq ≠ ⟨0, 4⟩) ∧
    (∃ c ∈ cannon_moves boardCannonScreen PlayerSide.Blue ⟨0, 0⟩,
      c.mv.toSq = ⟨1, 0⟩ ∧ c.score = 1) := by decide

theorem filterMap_match_eq_map_filter (l : List Square)
    (f : Square → Option Piece) (side : PlayerSide)
    (g : Square → MoveCandidate) :
    l.filterMap (fun sq =>
        match f sq with
        | some piece => if piece.owner = side then some (g sq) else none
        | none => none) =
      (l.filter (fun sq =>
        match f sq with
        | some piece => decide (piece.owner = side)
        | none => false)).map g := by
  induction l with
  | nil => rfl
  | cons x xs ih =>
    rw [List.filterMap_cons, List.filter_cons]
    cases hp : f x with
    | some piece =>
      by_cases ho : piece.owner = side
      · simp [hp, ho, ih]
      · simp [hp, ho, ih]
    | none => simp [hp, ih]

theorem default_hold_move_eq (board : BoardState) (side : PlayerSide) :
    default_hold_move board side =
      (ownedSquares board side).head?.map holdCandidate := by
  unfold default_hold_move ownedSquares
  rw [filterMap_match_eq_map_filter (squaresRect board.width board.height)
    board.piece_at side holdCandidate]
  rw [List.head?_map]

/-- C8: a board holding zero pieces of `side` makes `evaluate_position`
return no best move and an empty candidate list (not a hold move); a board
holding at least one owned piece but generating no per-kind candidates
makes it return exactly one hold pseudo-move — `from == to` on the first
owned piece in rank-major enumeration order, score 0. -/
theorem engine_empty_and_hold :
    (∀ (board : BoardState) (side : PlayerSide),
      ownedSquares board side = [] →
      (evaluate_position board side).best_move = none ∧
      (evaluate_position board side).candidates = []) ∧
    (∀ (board : BoardState) (side : PlayerSide) (sq : Square)
        (rest : List Square),
      ownedSquares board side = sq :: rest →
      rawCandidates board side = [] →
      (evaluate_position board side).candidates = [holdCandidate sq] ∧
      (evaluate_position board side).best_move = some (holdCandidate sq).mv ∧
      (holdCandidate sq).mv.fromSq = sq ∧ (holdCandidate sq).mv.toSq = sq ∧
      (holdCandidate sq).score = 0) := by
  constructor
  · intro board side h
    have hnone : ∀ sq ∈ squaresRect board.width board.height,
        (match board.piece_at sq with
          | some piece => decide (piece.owner = side)
          | none => false) = false := by
      intro sq hsq
      exact Bool.eq_false_iff.mpr (List.filter_eq_nil_iff.mp h sq hsq)
    have hraw : rawCandidates board side = [] := by
      unfold rawCandidates
      rw [List.flatMap_eq_nil_iff]
      intro sq hsq
      have hn := hnone sq hsq
      cases hp : board.piece_at sq with
      | none => simp [hp]
      | some piece =>
        rw [hp] at hn
        have ho : ¬ piece.owner = side := of_decide_eq_false hn
        simp [hp, ho]
    have hhold : default_hold_move board side = none := by
      rw [default_hold_move_eq, h]
      rfl
    constructor
    · simp [evaluate_position, generate_candidates, hraw, hhold, sortCands]
    · simp [evaluate_position, generate_candidates, hraw, hhold, sortCands]
  · intro board side sq rest h hraw
    have hhold : default_hold_move board side = some (holdCandidate sq) := by
      rw [default_hold_move_eq, h]
      rfl
    have hgen : generate_candidates board side = [holdCandidate sq] := by
      simp [generate_candidates, hraw, hhold]
    refine ⟨?_, ?_, rfl, rfl, rfl⟩
    · simp [evaluate_position, hgen, sortCands, insertCand]
    · simp [evaluate_position, hgen, sortCands, insertCand]

/-- C8 witness: the empty board yields no move and no candidates for Blue;
the board with a lone blue general at (0,5) (which has no palace moves)
yields exactly the hold pseudo-move on (0,5). -/
theorem engine_empty_and_hold_witness :
    ((evaluate_position BoardState.empty PlayerSide.Blue).best_move = none ∧
      (evaluate_position BoardState.empty PlayerSide.Blue).candidates = []) ∧
    ((evaluate_position boardLoneGeneral PlayerSide.Blue).candidates =
        [holdCandidate ⟨0, 5⟩] ∧
      (evaluate_position boardLoneGeneral PlayerSide.Blue).best_move =
        some (holdCandidate ⟨0, 5⟩).mv ∧
      (holdCandidate ⟨0, 5⟩).mv.fromSq = ⟨0, 5⟩ ∧
      (holdCandidate ⟨0, 5⟩).mv.toSq = ⟨0, 5⟩ ∧
      (holdCandidate ⟨0, 5⟩).score = 0) := by
  constructor
  · exact engine_empty_and_hold.1 BoardState.empty PlayerSide.Blue (by decide)
  · exact engine_empty_and_hold.2 boardLoneGeneral PlayerSide.Blue ⟨0, 5⟩ []
      (by decide) (by decide)

theorem mem_insertCand {c x : MoveCandidate} {l : List MoveCandidate} :
    x ∈ insertCand c l ↔ x = c ∨ x ∈ l := by
  induction l with
  | nil => simp [insertCand]
  | cons y ys ih =>
    by_cases h : y.score ≤ c.score
    · simp [insertCand, h]
    · simp only [insertCand, h, if_false, List.mem_cons, ih]
      tauto

theorem pairwise_insertCand {c : MoveCandidate} {l : List MoveCandidate}
    (h : l.Pairwise (fun a b => b.score ≤ a.score)) :
    (insertCand c l).Pairwise (fun a b => b.score ≤ a.score) := by
  induction l with
  | nil => simp [insertCand]
  | cons y ys ih =>
    rcases List.pairwise_cons.mp h with ⟨hy, hys⟩
    by_cases hcy : y.score ≤ c.score
    · have hins : insertCand c (y :: ys) = c :: y :: ys := by
        simp [insertCand, hcy]
      rw [hins]
      refine List.pairwise_cons.mpr ⟨?_, h⟩
      intro b hb
      rcases List.mem_cons.mp hb with rfl | hb'
      · exact hcy
      · exact le_trans (hy b hb') hcy
    · have hins : insertCand c (y :: ys) = y :: insertCand c ys := by
        simp [insertCand, hcy]
      rw [hins]
      refine List.pairwise_cons.mpr ⟨?_, ih hys⟩
      intro b hb
      rcases mem_insertCand.mp hb with rfl | hb'
      · omega
      · exact hy b hb'

theorem sortCands_pairwise (l : List MoveCandidate) :
    (sortCands l).Pairwise (fun a b => b.score ≤ a.score) := by
  induction l with
  | nil => simp [sortCands]
  | cons c cs ih => exact pairwise_insertCand ih

theorem filter_insertCand (s : Nat) (c : MoveCandidate)
    (l : List MoveCandidate) :
    (insertCand c l).filter (fun x => decide (x.score = s)) =
      ((c :: l).filter (fun x => decide (x.score = s))) := by
  induction l with
  | nil => rfl
  | cons y ys ih =>
    by_cases hcy : y.score ≤ c.score
    · have hins : insertCand c (y :: ys) = c :: y :: ys := by
        simp [insertCand, hcy]
      rw [hins]
    · have hins : insertCand c (y :: ys) = y :: insertCand c ys := by
        simp [insertCand, hcy]
      rw [hins]
      by_cases hc : c.score = s
      · have hyn : ¬ y.score = s := by omega
        simp only [List.filter_cons, ih]
        simp [hyn, hc]
      · simp only [List.filter_cons, ih]
        simp [hc]

theorem sortCands_filter (s : Nat) (l : List MoveCandidate) :
    (sortCands l).filter (fun x => decide (x.score = s)) =
      l.filter (fun x => decide (x.score = s)) := by
  induction l with
  | nil => rfl
  | cons c cs ih =>
    have hs : sortCands (c :: cs) = insertCand c (sortCands cs) := rfl
    rw [hs, filter_insertCand]
    simp only [List.filter_cons, ih]

/-- C9: `evaluate_position` returns the candidates sorted in descending
score order; the sort is stable over the rank-major generation order
(the sublist at each score value is exactly the generated sublist); and
`best_move` is the move of the head of the sorted list, which has maximal
score, whenever candidates exist. -/
theorem evaluate_sorted_stable (board : BoardState) (side : PlayerSide) :
    ((evaluate_position board side).candidates).Pairwise
        (fun a b => b.score ≤ a.score) ∧
    (∀ s : Nat, ((evaluate_position board side).candidates).filter
        (fun c => decide (c.score = s)) =
      (generate_candidates board side).filter
        (fun c => decide (c.score = s))) ∧
    (evaluate_position board side).best_move =
      ((evaluate_position board side).candidates).head?.map (fun c => c.mv) ∧
    (∀ c0, ((evaluate_position board side).candidates).head? = some c0 →
      ∀ c ∈ (evaluate_position board side).candidates,
        c.score ≤ c0.score) := by
  have hc : (evaluate_position board side).candidates =
      sortCands (generate_candidates board side) := rfl
  refine ⟨?_, ?_, rfl, ?_⟩
  · rw [hc]
    exact sortCands_pairwise _
  · intro s
    rw [hc]
    exact sortCands_filter s _
  · intro c0 h0 c hcmem
    rw [hc] at h0 hcmem
    have hp := sortCands_pairwise (generate_candidates board side)
    cases hl : sortCands (generate_candidates board side) with
    | nil =>
      rw [hl] at h0
      cases h0
    | cons a rest =>
      rw [hl] at h0 hcmem hp
      injection h0 with h0
      subst h0
      rcases List.mem_cons.mp hcmem with rfl | hmem
      · exact le_refl _
      · exact (List.pairwise_cons.mp hp).1 c hmem

set_option maxRecDepth 4000 in
/-- C9 witness: the sortedness, stability (at the capture score 10) and
best-move/head properties instantiated at the cannon board for Blue, whose
head candidate is the score-10 capture of the soldier at (0,6), an upper
bound for every candidate score. -/
theorem evaluate_sorted_stable_witness :
    (evaluate_position boardCannonScreen PlayerSide.Blue).candidates.Pairwise
        (fun a b => b.score ≤ a.score) ∧
    ((evaluate_position boardCannonScreen PlayerSide.Blue).candidates.filter
        (fun c => decide (c.score = 10)) =
      (generate_candidates boardCannonScreen PlayerSide.Blue).filter
        (fun c => decide (c.score = 10))) ∧
    ((evaluate_position boardCannonScreen PlayerSide.Blue).best_move =
      ((evaluate_position boardCannonScreen
        PlayerSide.Blue).candidates).head?.map (fun c => c.mv)) ∧
    (evaluate_position boardCannonScreen PlayerSide.Blue).candidates.all
        (fun c => decide (c.score ≤
          (candidate ⟨0, 0⟩ ⟨0, 6⟩ (some ⟨.Red, .Soldier⟩)).score)) = true := by
  refine ⟨(evaluate_sorted_stable boardCannonScreen PlayerSide.Blue).1,
    (evaluate_sorted_stable boardCannonScreen PlayerSide.Blue).2.1 10,
    (evaluate_sorted_stable boardCannonScreen PlayerSide.Blue).2.2.1, ?_⟩
  rw [List.all_eq_true]
  intro c hc
  have h := (evaluate_sorted_stable boardCannonScreen PlayerSide.Blue).2.2.2
    (candidate ⟨0, 0⟩ ⟨0, 6⟩ (some ⟨.Red, .Soldier⟩)) (by decide) c hc
  simpa using h

theorem play_turn_published (Frame : Type) (co : Collaborators Frame)
    (st : OrchestratorState) :
    ((play_turn co st).published).map eventTag =
      st.published.map eventTag ++
        [(EventKind.EngineDecision, (none : Option LifecyclePhase))] := by
  simp only [play_turn, publishEvent]
  split <;> simp [eventTag]

/-- C3: after a successful boot, `run()` with `max_retries = 3` over
collaborators that always succeed publishes exactly one Boot lifecycle
event, then one MatchStart, then three EngineDecision events (one per
sequentially executed turn), then one MatchEnd — in that order and nothing
else. -/
theorem orchestrator_run_events (Frame : Type) (co : Collaborators Frame) :
    ((matchRun co 3 (orchestratorBoot OrchestratorState.initial)).published).map
        eventTag =
      [(EventKind.Lifecycle, some LifecyclePhase.Boot),
       (EventKind.Lifecycle, some LifecyclePhase.MatchStart),
       (EventKind.EngineDecision, (none : Option LifecyclePhase)),
       (EventKind.EngineDecision, none),
       (EventKind.EngineDecision, none),
       (EventKind.Lifecycle, some LifecyclePhase.MatchEnd)] := by
  have h3 : List.range 3 = [0, 1, 2] := rfl
  simp only [matchRun, h3, List.foldl_cons, List.foldl_nil]
  simp only [publishEvent, List.map_append]
  rw [play_turn_published, play_turn_published, play_turn_published]
  simp [orchestratorBoot, publishEvent, OrchestratorState.initial, eventTag]
